import Mathlib

/-!
Verification development for the image-classification training script
`CNN_10k_pyotorch_single_GPU_oneCLR_ETH_Zurich_Seg.py`.

The development embeds, as executable Lean definitions:
* the sample catalog built by `CustomImageFolder` (directory scan, sorted
  class discovery, sorted recursive walk, extension filtering);
* the class-balanced index sampling and train/validation split performed
  by `get_data_loaders` (numpy `choice` with/without replacement, global
  shuffle, 80/20 split);
* the per-epoch metric aggregation, per-batch scheduler stepping, and
  best-checkpoint bookkeeping of `train_model` / `main`.

Randomness (numpy's RNG) is abstracted as an explicit `Rng` record of
choice functions; theorems quantify over all valid instantiations, so they
cover every possible random draw.  Machine floats that only carry metric
values (losses) are modelled as rationals; `float('inf')` is modelled as
`⊤` in `WithTop ℚ`.
-/

/-- A catalog as built by `CustomImageFolder.__init__`: the sorted class
names (`self.classes`) and the ordered list of `(path, class_index)`
sample entries (`self.samples`). -/
structure Catalog where
  classes : List String
  samples : List (String × Nat)
deriving DecidableEq, Repr

/-- The label column of the catalog: `[s[1] for s in dataset.samples]`. -/
def catLabels (cat : Catalog) : List Nat := cat.samples.map Prod.snd

/-- Abstraction of the numpy random generator used by `get_data_loaders`.
`pickWR c j` decides the `j`-th draw of `np.random.choice(..., replace=True)`
for class `c` (used modulo the population size); `permWOR c xs` is the
randomly ordered copy of `xs` whose prefix `np.random.choice(..., replace=False)`
returns; `shuffle` is `np.random.shuffle`. -/
structure Rng where
  pickWR : Nat → Nat → Nat
  permWOR : Nat → List Nat → List Nat
  shuffle : List Nat → List Nat

/-- An `Rng` is valid when its permutation components really permute:
this is the only property of numpy's RNG the program relies on. -/
structure Rng.Valid (rng : Rng) : Prop where
  perm : ∀ c xs, (rng.permWOR c xs).Perm xs
  shuf : ∀ xs, (rng.shuffle xs).Perm xs

/-- A concrete deterministic `Rng`: always draws position 0 and leaves
lists in place.  One possible resolution of the random choices. -/
def rng0 : Rng where
  pickWR := fun _ _ => 0
  permWOR := fun _ xs => xs
  shuffle := fun xs => xs

theorem rng0_valid : rng0.Valid :=
  ⟨fun _ _ => List.Perm.refl _, fun _ => List.Perm.refl _⟩

/-- `np.where(np.array([s[1] for s in samples]) == class_idx)[0]`:
the (strictly increasing) list of catalog positions carrying label `c`. -/
def classIndices (labels : List Nat) (c : Nat) : List Nat :=
  (List.range labels.length).filter (fun i => labels.getD i 0 == c)

/-- `np.random.choice(cis, k, replace=True)`: `k` independent draws from
the population `cis`; numpy raises `ValueError` on an empty population
(the call sites always have `k > 0` in this branch), modelled as `none`. -/
def sampleWithReplacement (rng : Rng) (c k : Nat) : List Nat → Option (List Nat)
  | [] => none
  | x :: xs =>
    some ((List.range k).map fun j => (x :: xs).getD (rng.pickWR c j % (x :: xs).length) 0)

/-- One iteration of the per-class sampling loop in `get_data_loaders`:
if the class has fewer than `k` members, sample with replacement,
otherwise `np.random.choice(..., k, replace=False)` — `k` distinct
positions, modelled as a prefix of a random permutation of the class. -/
def sampleOneClass (rng : Rng) (labels : List Nat) (k c : Nat) : Option (List Nat) :=
  let cis := classIndices labels c
  if cis.length < k then sampleWithReplacement rng c k cis
  else some ((rng.permWOR c cis).take k)

/-- The full sampling loop `for class_idx in range(len(dataset.classes))`,
concatenating the per-class samples with `indices.extend(...)`. -/
def sampleClasses (rng : Rng) (labels : List Nat) (k : Nat) : List Nat → Option (List Nat)
  | [] => some []
  | c :: cs =>
    match sampleOneClass rng labels k c, sampleClasses rng labels k cs with
    | some s, some rest => some (s ++ rest)
    | _, _ => none

/-- The index-set part of `get_data_loaders`: print the per-class count
diagnostic `np.bincount([s[1] for s in dataset.samples])` — which raises
`TypeError` when the catalog is empty, because the empty Python list
becomes a float64 array that cannot be safely cast to integers — then
build the balanced pool, `np.random.shuffle` it, and split at
`int(0.8 * len(indices))` (the exact value `4 * n / 5` in natural
division: `0.8 * n` has fractional part at least `0.2` unless it is an
integer, so the float truncation agrees with the exact floor).  The
post-sampling diagnostic `np.bincount([... for idx in indices])` raises
the same way when the pool is empty; it runs before the function returns,
so an empty pool also aborts (the guard is placed before the split here,
which does not change which inputs succeed or what they return).
Returns `(train_indices, val_indices)`; `none` models the raised errors. -/
def get_data_loaders (rng : Rng) (cat : Catalog) (k : Nat) :
    Option (List Nat × List Nat) :=
  if (catLabels cat).isEmpty then none
  else
    match sampleClasses rng (catLabels cat) k (List.range cat.classes.length) with
    | none => none
    | some indices =>
      if indices.isEmpty then none
      else
        let shuffled := rng.shuffle indices
        let split := 4 * shuffled.length / 5
        some (shuffled.take split, shuffled.drop split)

/-! ### Basic lemmas about the sampler -/

theorem classIndices_nodup (labels : List Nat) (c : Nat) :
    (classIndices labels c).Nodup :=
  (List.nodup_range _).filter _

theorem mem_classIndices {labels : List Nat} {c i : Nat} :
    i ∈ classIndices labels c ↔ i < labels.length ∧ labels.getD i 0 = c := by
  simp [classIndices, List.mem_filter, List.mem_range]

theorem sampleWithReplacement_sub {rng : Rng} {c k : Nat} {cis s : List Nat}
    (h : sampleWithReplacement rng c k cis = some s) : ∀ i ∈ s, i ∈ cis := by
  intro i hi
  match cis, h with
  | x :: xs, h =>
    simp only [sampleWithReplacement, Option.some.injEq] at h
    subst h
    rcases List.mem_map.1 hi with ⟨j, _, rfl⟩
    have hmod : rng.pickWR c j % (x :: xs).length < (x :: xs).length :=
      Nat.mod_lt _ (by simp)
    rw [List.getD_eq_getElem?_getD, List.getElem?_eq_getElem hmod]
    exact List.getElem_mem hmod

theorem sampleWithReplacement_length {rng : Rng} {c k : Nat} {cis s : List Nat}
    (h : sampleWithReplacement rng c k cis = some s) : s.length = k := by
  match cis, h with
  | x :: xs, h =>
    simp only [sampleWithReplacement, Option.some.injEq] at h
    subst h
    simp

theorem sampleOneClass_sub {rng : Rng} (hv : rng.Valid) {labels : List Nat}
    {k c : Nat} {s : List Nat} (h : sampleOneClass rng labels k c = some s) :
    ∀ i ∈ s, i ∈ classIndices labels c := by
  intro i hi
  unfold sampleOneClass at h
  by_cases hlt : (classIndices labels c).length < k
  · rw [if_pos hlt] at h
    exact sampleWithReplacement_sub h i hi
  · rw [if_neg hlt] at h
    simp only [Option.some.injEq] at h
    subst h
    exact (hv.perm c _).mem_iff.1 (List.mem_of_mem_take hi)

theorem sampleOneClass_length {rng : Rng} (hv : rng.Valid) {labels : List Nat}
    {k c : Nat} {s : List Nat} (h : sampleOneClass rng labels k c = some s) :
    s.length = k := by
  unfold sampleOneClass at h
  by_cases hlt : (classIndices labels c).length < k
  · rw [if_pos hlt] at h
    exact sampleWithReplacement_length h
  · rw [if_neg hlt] at h
    simp only [Option.some.injEq] at h
    subst h
    have hlen : (rng.permWOR c (classIndices labels c)).length
        = (classIndices labels c).length := (hv.perm c _).length_eq
    rw [List.length_take, hlen]
    omega

theorem sampleOneClass_nodup_of_le {rng : Rng} (hv : rng.Valid) {labels : List Nat}
    {k c : Nat} {s : List Nat} (hk : k ≤ (classIndices labels c).length)
    (h : sampleOneClass rng labels k c = some s) : s.Nodup := by
  unfold sampleOneClass at h
  have hlt : ¬ (classIndices labels c).length < k := by omega
  rw [if_neg hlt] at h
  simp only [Option.some.injEq] at h
  subst h
  exact (List.take_sublist _ _).nodup ((hv.perm c _).symm.nodup (classIndices_nodup _ _))

theorem sampleClasses_length {rng : Rng} (hv : rng.Valid) {labels : List Nat}
    {k : Nat} : ∀ {cs : List Nat} {pool : List Nat},
    sampleClasses rng labels k cs = some pool → pool.length = cs.length * k := by
  intro cs
  induction cs with
  | nil =>
    intro pool h
    simp only [sampleClasses, Option.some.injEq] at h
    subst h
    simp
  | cons c cs ih =>
    intro pool h
    unfold sampleClasses at h
    rcases hs : sampleOneClass rng labels k c with _ | s
    · rw [hs] at h; exact absurd h (by simp)
    · rcases hr : sampleClasses rng labels k cs with _ | rest
      · rw [hs, hr] at h; exact absurd h (by simp)
      · rw [hs, hr] at h
        simp only [Option.some.injEq] at h
        subst h
        rw [List.length_append, sampleOneClass_length hv hs, ih hr]
        simp [Nat.succ_mul, Nat.add_comm]

theorem sampleClasses_sub {rng : Rng} (hv : rng.Valid) {labels : List Nat}
    {k : Nat} : ∀ {cs : List Nat} {pool : List Nat},
    sampleClasses rng labels k cs = some pool →
    ∀ i ∈ pool, ∃ c ∈ cs, i ∈ classIndices labels c := by
  intro cs
  induction cs with
  | nil =>
    intro pool h
    simp only [sampleClasses, Option.some.injEq] at h
    subst h
    simp
  | cons c cs ih =>
    intro pool h i hi
    unfold sampleClasses at h
    rcases hs : sampleOneClass rng labels k c with _ | s
    · rw [hs] at h; exact absurd h (by simp)
    · rcases hr : sampleClasses rng labels k cs with _ | rest
      · rw [hs, hr] at h; exact absurd h (by simp)
      · rw [hs, hr] at h
        simp only [Option.some.injEq] at h
        subst h
        rcases List.mem_append.1 hi with hmem | hmem
        · exact ⟨c, by simp, sampleOneClass_sub hv hs i hmem⟩
        · rcases ih hr i hmem with ⟨c', hc', hm'⟩
          exact ⟨c', by simp [hc'], hm'⟩

/-! ### Concrete catalogs used as witnesses and counterexamples -/

/-- A catalog with one class holding a single image. -/
def cat1 : Catalog := ⟨["a"], [("p", 0)]⟩

/-- A catalog with two classes holding one image each. -/
def cat2 : Catalog := ⟨["a", "b"], [("p", 0), ("q", 1)]⟩

/-- Helper: the split point never exceeds the pool size. -/
theorem split_le (n : Nat) : 4 * n / 5 ≤ n := by
  calc 4 * n / 5 ≤ 5 * n / 5 := Nat.div_le_div_right (by omega)
    _ = n := Nat.mul_div_cancel_left n (by omega)

/-- Helper: a successful run of `get_data_loaders` decomposes into a pool,
its shuffle, and the 80/20 take/drop split. -/
theorem get_data_loaders_eq {rng : Rng} {cat : Catalog} {k : Nat}
    {t v : List Nat} (h : get_data_loaders rng cat k = some (t, v)) :
    ∃ pool, sampleClasses rng (catLabels cat) k (List.range cat.classes.length) = some pool ∧
      t = (rng.shuffle pool).take (4 * (rng.shuffle pool).length / 5) ∧
      v = (rng.shuffle pool).drop (4 * (rng.shuffle pool).length / 5) := by
  unfold get_data_loaders at h
  by_cases hemp : (catLabels cat).isEmpty
  · rw [if_pos hemp] at h
    exact absurd h (by simp)
  · rw [if_neg hemp] at h
    rcases hp : sampleClasses rng (catLabels cat) k (List.range cat.classes.length) with _ | pool
    · rw [hp] at h; exact absurd h (by simp)
    · rw [hp] at h
      dsimp only at h
      by_cases hpe : pool.isEmpty
      · rw [if_pos hpe] at h
        exact absurd h (by simp)
      · rw [if_neg hpe] at h
        simp only [Option.some.injEq, Prod.mk.injEq] at h
        exact ⟨pool, rfl, h.1.symm, h.2.symm⟩

/-- Claim C1 (corrected), counterexample: with one class holding a single
image and `num_img_per_class = 5`, the minority class is oversampled with
replacement, the balanced pool is `[0, 0, 0, 0, 0]`, and catalog entry `0`
lands in both the train and the validation subsets — the two subsets are
not disjoint as sets of catalog entries. -/
theorem claim_C1_counterexample :
    get_data_loaders rng0 cat1 5 = some ([0, 0, 0, 0], [0]) ∧
    ¬ List.Disjoint ([0, 0, 0, 0] : List Nat) ([0] : List Nat) := by
  refine ⟨rfl, fun hd => ?_⟩
  exact hd (a := 0) (by simp) (by simp)

/-- Claim C1 (amended): for every catalog and every valid resolution of the
random choices, a successful run splits the shuffled balanced pool by
position, so `train ++ val` is a permutation of (equals as a multiset) the
balanced index pool; and whenever the pool has no duplicate indices (in
particular when no class was oversampled with replacement) no catalog
entry appears in both subsets. -/
theorem claim_C1 (rng : Rng) (hv : rng.Valid) (cat : Catalog) (k : Nat)
    (t v : List Nat) (h : get_data_loaders rng cat k = some (t, v)) :
    ∃ pool,
      sampleClasses rng (catLabels cat) k (List.range cat.classes.length) = some pool ∧
      (t ++ v).Perm pool ∧
      (pool.Nodup → ∀ i ∈ t, i ∉ v) := by
  rcases get_data_loaders_eq h with ⟨pool, hp, ht, hvv⟩
  refine ⟨pool, hp, ?_, ?_⟩
  · have : t ++ v = rng.shuffle pool := by
      rw [ht, hvv, List.take_append_drop]
    rw [this]
    exact hv.shuf pool
  · intro hnd i hit hiv
    have hshufnd : (rng.shuffle pool).Nodup := (hv.shuf pool).symm.nodup hnd
    have hsplit := List.take_append_drop (4 * (rng.shuffle pool).length / 5) (rng.shuffle pool)
    rw [← hsplit] at hshufnd
    exact List.disjoint_of_nodup_append hshufnd (ht ▸ hit) (hvv ▸ hiv)

/-- Witness for Claim C1 (amended) at a concrete input. -/
theorem claim_C1_witness :
    ∃ pool,
      sampleClasses rng0 (catLabels cat2) 5 (List.range cat2.classes.length) = some pool ∧
      (([0, 0, 0, 0, 0, 1, 1, 1] ++ [1, 1] : List Nat)).Perm pool ∧
      (pool.Nodup → ∀ i ∈ ([0, 0, 0, 0, 0, 1, 1, 1] : List Nat), i ∉ ([1, 1] : List Nat)) :=
  claim_C1 rng0 rng0_valid cat2 5 [0, 0, 0, 0, 0, 1, 1, 1] [1, 1] rfl

/-- Claim C2: for every class `c` with raw catalog count below `k`, any
successful balanced sample for `c` has exactly `k` entries; for a class
with count at least `k` it has exactly `k` entries that are distinct
positions of that class; and the concatenated pool over `n` classes has
length `n * k`. -/
theorem claim_C2 (rng : Rng) (hv : rng.Valid) (labels : List Nat) (k : Nat) :
    (∀ c s, (classIndices labels c).length < k →
      sampleOneClass rng labels k c = some s → s.length = k) ∧
    (∀ c s, k ≤ (classIndices labels c).length →
      sampleOneClass rng labels k c = some s →
      s.length = k ∧ s.Nodup ∧ ∀ i ∈ s, i ∈ classIndices labels c) ∧
    (∀ n pool, sampleClasses rng labels k (List.range n) = some pool →
      pool.length = n * k) := by
  refine ⟨?_, ?_, ?_⟩
  · intro c s _ h
    exact sampleOneClass_length hv h
  · intro c s hk h
    exact ⟨sampleOneClass_length hv h, sampleOneClass_nodup_of_le hv hk h,
      sampleOneClass_sub hv h⟩
  · intro n pool h
    have hlen := sampleClasses_length hv h
    rwa [List.length_range] at hlen

/-- Witness for Claim C2: three samples over two classes with target 2 —
class 0 has two members (sampled without replacement), class 1 has one
(oversampled), and the pool has length `2 * 2`. -/
theorem claim_C2_witness : ([0, 1, 2, 2] : List Nat).length = 2 * 2 :=
  (claim_C2 rng0 rng0_valid [0, 0, 1] 2).2.2 2 [0, 1, 2, 2] rfl

/-- Claim C6: a successful run splits the shuffled pool at position
`⌊0.8 * len(pool)⌋` (`4 * n / 5` in exact arithmetic), the prefix being
`train_indices` and the suffix `val_indices`; in particular a pool of size
10 yields exactly 8 train and 2 validation indices. -/
theorem claim_C6 (rng : Rng) (hv : rng.Valid) (cat : Catalog) (k : Nat)
    (t v : List Nat) (h : get_data_loaders rng cat k = some (t, v)) :
    ∃ pool,
      sampleClasses rng (catLabels cat) k (List.range cat.classes.length) = some pool ∧
      t = (rng.shuffle pool).take (4 * pool.length / 5) ∧
      v = (rng.shuffle pool).drop (4 * pool.length / 5) ∧
      t.length = 4 * pool.length / 5 ∧
      v.length = pool.length - 4 * pool.length / 5 ∧
      (pool.length = 10 → t.length = 8 ∧ v.length = 2) := by
  rcases get_data_loaders_eq h with ⟨pool, hp, ht, hvv⟩
  have hsl : (rng.shuffle pool).length = pool.length := (hv.shuf pool).length_eq
  rw [hsl] at ht hvv
  have htl : t.length = 4 * pool.length / 5 := by
    rw [ht, List.length_take, hsl]
    exact Nat.min_eq_left (split_le _)
  have hvl : v.length = pool.length - 4 * pool.length / 5 := by
    rw [hvv, List.length_drop, hsl]
  refine ⟨pool, hp, ht, hvv, htl, hvl, ?_⟩
  intro h10
  rw [htl, hvl, h10]
  norm_num

/-- Witness for Claim C6 at a concrete input with pool size 10. -/
theorem claim_C6_witness :
    ∃ pool,
      sampleClasses rng0 (catLabels cat2) 5 (List.range cat2.classes.length) = some pool ∧
      ([0, 0, 0, 0, 0, 1, 1, 1] : List Nat) = (rng0.shuffle pool).take (4 * pool.length / 5) ∧
      ([1, 1] : List Nat) = (rng0.shuffle pool).drop (4 * pool.length / 5) ∧
      ([0, 0, 0, 0, 0, 1, 1, 1] : List Nat).length = 4 * pool.length / 5 ∧
      ([1, 1] : List Nat).length = pool.length - 4 * pool.length / 5 ∧
      (pool.length = 10 →
        ([0, 0, 0, 0, 0, 1, 1, 1] : List Nat).length = 8 ∧ ([1, 1] : List Nat).length = 2) :=
  claim_C6 rng0 rng0_valid cat2 5 [0, 0, 0, 0, 0, 1, 1, 1] [1, 1] rfl

/-- Helper: positions drawn for class `c` point at catalog entries whose
label is `c`. -/
theorem label_at {cat : Catalog} {i c : Nat}
    (h : i ∈ classIndices (catLabels cat) c) :
    ∃ e, cat.samples[i]? = some e ∧ e.2 = c := by
  rcases mem_classIndices.1 h with ⟨hlt, hlab⟩
  have hlen : (catLabels cat).length = cat.samples.length := by
    simp [catLabels]
  rw [hlen] at hlt
  refine ⟨cat.samples[i], List.getElem?_eq_getElem hlt, ?_⟩
  rw [List.getD_eq_getElem?_getD] at hlab
  have : (catLabels cat)[i]? = some cat.samples[i].2 := by
    simp [catLabels, List.getElem?_map, List.getElem?_eq_getElem hlt]
  rw [this] at hlab
  simpa using hlab

/-- Claim C10: every index emitted by the balanced sampler — hence every
element of `train_indices` and `val_indices` — is a valid position in the
catalog (strictly below `len(catalog)`), and the catalog entry at any
position drawn for class `c` carries label `c`, so per-item retrieval
never indexes out of bounds. -/
theorem claim_C10 (rng : Rng) (hv : rng.Valid) (cat : Catalog) (k : Nat) :
    (∀ t v, get_data_loaders rng cat k = some (t, v) →
      ∀ i, (i ∈ t ∨ i ∈ v) → i < cat.samples.length) ∧
    (∀ c s, sampleOneClass rng (catLabels cat) k c = some s →
      ∀ i ∈ s, ∃ e, cat.samples[i]? = some e ∧ e.2 = c) := by
  constructor
  · intro t v h i hi
    rcases get_data_loaders_eq h with ⟨pool, hp, ht, hvv⟩
    have hmemshuf : i ∈ rng.shuffle pool := by
      rcases hi with hit | hiv
      · exact List.mem_of_mem_take (ht ▸ hit)
      · exact List.mem_of_mem_drop (hvv ▸ hiv)
    have hmem : i ∈ pool := (hv.shuf pool).mem_iff.1 hmemshuf
    rcases sampleClasses_sub hv hp i hmem with ⟨c, _, hci⟩
    have := (mem_classIndices.1 hci).1
    simpa [catLabels] using this
  · intro c s h i hi
    exact label_at (sampleOneClass_sub hv h i hi)

/-- Witness for Claim C10 at a concrete input. -/
theorem claim_C10_witness : (1 : Nat) < cat2.samples.length :=
  (claim_C10 rng0 rng0_valid cat2 5).1 [0, 0, 0, 0, 0, 1, 1, 1] [1, 1] rfl 1
    (Or.inr (by simp))

/-! ### Training-loop embedding: metrics, checkpoints, scheduler events -/

/-- One processed batch of `train_model`'s inner loop, as observed by the
metric accumulators: `inputs.size(0)`, `loss.item()` (modelled as a
rational), and the number of correct predictions in the batch. -/
structure BatchResult where
  size : Nat
  loss : ℚ
  corrects : Nat
deriving DecidableEq, Repr

/-- `running_loss += loss.item() * inputs.size(0)` accumulated over the
epoch's batches. -/
def running_loss (bs : List BatchResult) : ℚ :=
  (bs.map (fun b => b.loss * (b.size : ℚ))).sum

/-- `running_corrects += torch.sum(preds == labels.data).item()`. -/
def running_corrects (bs : List BatchResult) : Nat :=
  (bs.map (fun b => b.corrects)).sum

/-- `epoch_loss = running_loss / len(train_loader.dataset)` — the divisor
in the code is the length of the FULL dataset (the whole catalog), not the
number of samples the epoch iterated.  The same formula is used for the
validation metrics (`val_loss / len(val_loader.dataset)`). -/
def epoch_loss (bs : List BatchResult) (datasetLen : Nat) : ℚ :=
  running_loss bs / (datasetLen : ℚ)

/-- `epoch_acc = running_corrects / len(train_loader.dataset)`. -/
def epoch_acc (bs : List BatchResult) (datasetLen : Nat) : ℚ :=
  (running_corrects bs : ℚ) / (datasetLen : ℚ)

/-- The number of samples actually processed in the epoch: the sum of the
batch sizes (with `SubsetRandomSampler` this equals the subset length). -/
def total_samples (bs : List BatchResult) : Nat :=
  (bs.map (fun b => b.size)).sum

/-- The spec's aggregation formula
`epoch_loss = sum(batch_loss * batch_size) / total_train_samples`,
stated verbatim for comparison with the code's `epoch_loss`. -/
def spec_epoch_loss (bs : List BatchResult) : ℚ :=
  running_loss bs / (total_samples bs : ℚ)

/-- The spec's accuracy formula `epoch_acc = total_correct / total_train_samples`. -/
def spec_epoch_acc (bs : List BatchResult) : ℚ :=
  (running_corrects bs : ℚ) / (total_samples bs : ℚ)

/-- Claim C3 (code bug), the code evaluated at a failing input: catalog
`cat1` (one class, one image) with `num_img_per_class = 5` produces a
train subset of 4 indices over a dataset of length 1.  One training batch
of size 4 with loss 1 and all 4 predictions correct makes the code report
`epoch_loss = 4` and `epoch_acc = 4` — an accuracy above 1, because the
code divides by `len(train_loader.dataset)` (the full catalog size, here
1) — while the spec's formulas give loss 1 and accuracy 1. -/
theorem claim_C3_code_bug :
    get_data_loaders rng0 cat1 5 = some ([0, 0, 0, 0], [0]) ∧
    cat1.samples.length = 1 ∧
    epoch_loss [⟨4, 1, 4⟩] cat1.samples.length = 4 ∧
    epoch_acc [⟨4, 1, 4⟩] cat1.samples.length = 4 ∧
    spec_epoch_loss [⟨4, 1, 4⟩] = 1 ∧
    spec_epoch_acc [⟨4, 1, 4⟩] = 1 ∧
    epoch_loss [⟨4, 1, 4⟩] cat1.samples.length ≠ spec_epoch_loss [⟨4, 1, 4⟩] := by
  refine ⟨rfl, rfl, ?_, ?_, ?_, ?_, ?_⟩ <;>
    norm_num [epoch_loss, epoch_acc, spec_epoch_loss, spec_epoch_acc,
      running_loss, running_corrects, total_samples, cat1]

/-- `train_model`'s checkpoint bookkeeping: starting from
`best_loss = float('inf')` (modelled as `⊤`), process the per-epoch
validation losses in order; on `val_loss < best_loss` update `best_loss`
and write a checkpoint (recorded as the written loss value), otherwise
write nothing.  Returns the written losses in save order. -/
def checkpointTrace : WithTop ℚ → List ℚ → List ℚ
  | _, [] => []
  | best, l :: rest =>
    if (l : WithTop ℚ) < best then l :: checkpointTrace (l : WithTop ℚ) rest
    else checkpointTrace best rest

/-- The checkpoints a whole run writes: `best_loss = float('inf')` at entry. -/
def savedCheckpoints (losses : List ℚ) : List ℚ := checkpointTrace ⊤ losses

/-- The spec's description of the decision: a checkpoint is written for an
epoch iff its validation loss is strictly below the minimum of all earlier
losses (`m` carries that running minimum, starting at `+∞`). -/
def specSavedAux : WithTop ℚ → List ℚ → List ℚ
  | _, [] => []
  | m, l :: rest =>
    (if (l : WithTop ℚ) < m then [l] else []) ++ specSavedAux (min m (l : WithTop ℚ)) rest

theorem checkpointTrace_lt : ∀ (b : WithTop ℚ) (losses : List ℚ),
    ∀ x ∈ checkpointTrace b losses, (x : WithTop ℚ) < b := by
  intro b losses
  induction losses generalizing b with
  | nil => simp [checkpointTrace]
  | cons l rest ih =>
    intro x hx
    unfold checkpointTrace at hx
    by_cases hl : (l : WithTop ℚ) < b
    · rw [if_pos hl] at hx
      rcases List.mem_cons.1 hx with rfl | hx'
      · exact hl
      · exact lt_trans (ih _ x hx') hl
    · rw [if_neg hl] at hx
      exact ih b x hx

theorem checkpointTrace_sorted : ∀ (b : WithTop ℚ) (losses : List ℚ),
    List.Pairwise (fun a a' => a' < a) (checkpointTrace b losses) := by
  intro b losses
  induction losses generalizing b with
  | nil => simp [checkpointTrace]
  | cons l rest ih =>
    unfold checkpointTrace
    by_cases hl : (l : WithTop ℚ) < b
    · rw [if_pos hl]
      refine List.pairwise_cons.2 ⟨?_, ih _⟩
      intro x hx
      exact_mod_cast checkpointTrace_lt _ _ x hx
    · rw [if_neg hl]
      exact ih b

theorem checkpointTrace_eq_spec : ∀ (b : WithTop ℚ) (losses : List ℚ),
    checkpointTrace b losses = specSavedAux b losses := by
  intro b losses
  induction losses generalizing b with
  | nil => rfl
  | cons l rest ih =>
    unfold checkpointTrace specSavedAux
    by_cases hl : (l : WithTop ℚ) < b
    · rw [if_pos hl, if_pos hl, min_eq_right (le_of_lt hl)]
      simp [ih]
    · rw [if_neg hl, if_neg hl, min_eq_left (le_of_not_lt hl)]
      simp [ih]

/-- Claim C5: the run starts with best loss `+∞`; a checkpoint is written
for an epoch if and only if its validation loss is strictly below the
minimum (the "best") of all earlier validation losses; and the written
checkpoint losses are strictly decreasing in save order. -/
theorem claim_C5 (losses : List ℚ) :
    savedCheckpoints losses = specSavedAux ⊤ losses ∧
    List.Pairwise (fun a a' => a' < a) (savedCheckpoints losses) :=
  ⟨checkpointTrace_eq_spec ⊤ losses, checkpointTrace_sorted ⊤ losses⟩

/-- End-of-run restoration in `train_model` / `main`: fold over the epochs'
(validation loss, end-of-epoch parameter snapshot) pairs keeping a deep
copy of the best snapshot; `model.load_state_dict(best_model_wts)` resets
the model to it and `main` saves exactly that state as `Final_model.pth`. -/
def finalWeights {W : Type} : WithTop ℚ → W → List (ℚ × W) → W
  | _, bw, [] => bw
  | best, bw, (l, w) :: rest =>
    if (l : WithTop ℚ) < best then finalWeights (l : WithTop ℚ) w rest
    else finalWeights best bw rest

/-- The final artifact of a run with initial weights `w0`. -/
def train_model_final {W : Type} (w0 : W) (epochs : List (ℚ × W)) : W :=
  finalWeights ⊤ w0 epochs

theorem finalWeights_spec {W : Type} : ∀ (epochs : List (ℚ × W)) (b : WithTop ℚ) (bw : W),
    (finalWeights b bw epochs = bw ∧ ∀ e ∈ epochs, b ≤ (e.1 : WithTop ℚ)) ∨
    (∃ p ∈ epochs, finalWeights b bw epochs = p.2 ∧ (p.1 : WithTop ℚ) < b ∧
      ∀ e ∈ epochs, p.1 ≤ e.1) := by
  intro epochs
  induction epochs with
  | nil => intro b bw; left; simp [finalWeights]
  | cons e rest ih =>
    intro b bw
    rcases e with ⟨l, w⟩
    by_cases hl : (l : WithTop ℚ) < b
    · right
      rcases ih (l : WithTop ℚ) w with ⟨heq, hall⟩ | ⟨p, hp, heq, hlt, hall⟩
      · refine ⟨(l, w), by simp, ?_, hl, ?_⟩
        · simp only [finalWeights, if_pos hl]
          exact heq
        · intro e' he'
          rcases List.mem_cons.1 he' with rfl | he''
          · exact le_refl _
          · exact_mod_cast hall e' he''
      · refine ⟨p, by simp [hp], ?_, lt_trans hlt hl, ?_⟩
        · simp only [finalWeights, if_pos hl]
          exact heq
        · intro e' he'
          rcases List.mem_cons.1 he' with rfl | he''
          · exact le_of_lt (by exact_mod_cast hlt)
          · exact hall e' he''
    · rcases ih b bw with ⟨heq, hall⟩ | ⟨p, hp, heq, hlt, hall⟩
      · left
        refine ⟨?_, ?_⟩
        · simp only [finalWeights, if_neg hl]
          exact heq
        · intro e' he'
          rcases List.mem_cons.1 he' with rfl | he''
          · exact le_of_not_lt hl
          · exact hall e' he''
      · right
        refine ⟨p, by simp [hp], ?_, hlt, ?_⟩
        · simp only [finalWeights, if_neg hl]
          exact heq
        · intro e' he'
          rcases List.mem_cons.1 he' with rfl | he''
          · have hb : (p.1 : WithTop ℚ) ≤ (l : WithTop ℚ) :=
              le_trans (le_of_lt hlt) (le_of_not_lt hl)
            exact_mod_cast hb
          · exact hall e' he''

/-- Claim C8: at run end the restored (and persisted) parameters are the
snapshot of an epoch whose validation loss is minimal over all epochs —
the final artifact is the best-ever model, not necessarily the last
epoch's. -/
theorem claim_C8 {W : Type} (w0 : W) (epochs : List (ℚ × W)) (h : epochs ≠ []) :
    ∃ p ∈ epochs, train_model_final w0 epochs = p.2 ∧ ∀ e ∈ epochs, p.1 ≤ e.1 := by
  rcases finalWeights_spec epochs ⊤ w0 with ⟨_, hall⟩ | ⟨p, hp, heq, _, hall⟩
  · rcases epochs with _ | ⟨e, rest⟩
    · exact absurd rfl h
    · exact absurd (hall e (by simp)) (by simp)
  · exact ⟨p, hp, heq, hall⟩

/-- Witness for Claim C8: three epochs with losses 3, 2, 5 — the final
artifact is the weights from the loss-2 epoch. -/
theorem claim_C8_witness :
    ∃ p ∈ ([(3, 1), (2, 2), (5, 3)] : List (ℚ × Nat)),
      train_model_final 0 ([(3, 1), (2, 2), (5, 3)] : List (ℚ × Nat)) = p.2 ∧
      ∀ e ∈ ([(3, 1), (2, 2), (5, 3)] : List (ℚ × Nat)), p.1 ≤ e.1 :=
  claim_C8 0 [(3, 1), (2, 2), (5, 3)] (List.cons_ne_nil _ _)

/-- Events observable in `train_model`'s epoch body, in program order:
the optimizer update, the scheduler advance, and a validation batch. -/
inductive TrainEv
  | optStep
  | schedStep
  | valBatch
deriving DecidableEq, Repr

/-- One epoch of `train_model`: for each of the `nTrain` training batches
`optimizer.step()` immediately followed by `scheduler.step()`; then the
`nVal` validation batches, which touch neither the optimizer nor the
scheduler. -/
def trainEpochEvents (nTrain nVal : Nat) : List TrainEv :=
  (List.range nTrain).flatMap (fun _ => [TrainEv.optStep, TrainEv.schedStep]) ++
    (List.range nVal).map (fun _ => TrainEv.valBatch)

/-- The whole run: `for epoch in range(num_epochs)`. -/
def trainRunEvents (nEpochs nTrain nVal : Nat) : List TrainEv :=
  (List.range nEpochs).flatMap (fun _ => trainEpochEvents nTrain nVal)

/-- The run decomposed into batch-level chunks: each training batch
contributes the two-event chunk `[optStep, schedStep]`, each validation
batch the chunk `[valBatch]`. -/
def runChunks (nEpochs nTrain nVal : Nat) : List (List TrainEv) :=
  (List.range nEpochs).flatMap (fun _ =>
    (List.range nTrain).map (fun _ => [TrainEv.optStep, TrainEv.schedStep]) ++
      (List.range nVal).map (fun _ => [TrainEv.valBatch]))

theorem count_flatMap_const {α β : Type} [BEq α] (l : List β) (L : List α) (a : α) :
    (l.flatMap (fun _ => L)).count a = l.length * L.count a := by
  induction l with
  | nil => simp
  | cons x xs ih =>
    simp [List.flatMap_cons, List.count_append, ih, Nat.succ_mul, Nat.add_comm]

theorem flatten_flatMap {α β : Type} (l : List β) (f : β → List (List α)) :
    (l.flatMap f).flatten = l.flatMap (fun x => (f x).flatten) := by
  induction l with
  | nil => simp
  | cons x xs ih => simp [List.flatMap_cons, List.flatten_append, ih]

/-- Claim C7: in every run the learning-rate schedule advances exactly
`num_epochs * batches_per_epoch` times, once per processed training batch;
the run decomposes into batch chunks in which each schedule advance
immediately follows the optimizer step of its own training batch, and
validation batches contain no schedule advance. -/
theorem claim_C7 (e t v : Nat) :
    (trainRunEvents e t v).count TrainEv.schedStep = e * t ∧
    (trainRunEvents e t v).count TrainEv.optStep = e * t ∧
    trainRunEvents e t v = (runChunks e t v).flatten ∧
    (∀ c ∈ runChunks e t v, c = [TrainEv.optStep, TrainEv.schedStep] ∨ c = [TrainEv.valBatch]) ∧
    (runChunks e t v).count [TrainEv.optStep, TrainEv.schedStep] = e * t := by
  have hepoch_sched : (trainEpochEvents t v).count TrainEv.schedStep = t := by
    simp [trainEpochEvents, List.count_append, count_flatMap_const,
      List.map_const', List.count_replicate]
  have hepoch_opt : (trainEpochEvents t v).count TrainEv.optStep = t := by
    simp [trainEpochEvents, List.count_append, count_flatMap_const,
      List.map_const', List.count_replicate]
  refine ⟨?_, ?_, ?_, ?_, ?_⟩
  · rw [trainRunEvents, count_flatMap_const, List.length_range, hepoch_sched]
  · rw [trainRunEvents, count_flatMap_const, List.length_range, hepoch_opt]
  · rw [runChunks, flatten_flatMap, trainRunEvents]
    refine congrArg _ (funext fun _ => ?_)
    rw [List.flatten_append, trainEpochEvents]
    refine congrArg₂ _ ?_ ?_
    · rw [List.flatMap_def]
    · rw [List.map_const', List.map_const', List.flatten_replicate_singleton]
  · intro c hc
    rcases List.mem_flatMap.1 hc with ⟨_, _, hmem⟩
    rcases List.mem_append.1 hmem with hm | hm
    · left
      rcases List.mem_map.1 hm with ⟨_, _, rfl⟩
      rfl
    · right
      rcases List.mem_map.1 hm with ⟨_, _, rfl⟩
      rfl
  · rw [runChunks, count_flatMap_const, List.length_range]
    simp [List.count_append, List.map_const', List.count_replicate]

/-! ### Catalog construction (`CustomImageFolder`) -/

/-- Abstraction of the directory tree read by `CustomImageFolder`:
`rootDirs` are the names of the immediate subdirectories of `root` in
`os.scandir` order (scandir also yields plain files, which the code drops;
they are irrelevant and omitted); `walk c` is the `os.walk` output for the
subtree of class directory `c` — one `(dirpath, filenames)` pair per
directory, in traversal order.  The `dirnames` component of the walk
tuples is ignored by the code except as a tie-breaker in `sorted(...)`,
which never fires because dirpaths are distinct in a real filesystem, so
the model sorts walk entries by dirpath. -/
structure FS where
  rootDirs : List String
  walk : String → List (String × List String)

namespace CustomImageFolder

/-- The extension allow-list of `_is_image_file`. -/
def extensions : List String := [".jpg", ".jpeg", ".png", ".bmp", ".gif"]

/-- `_is_image_file`: `any(filename.lower().endswith(ext) for ext in extensions)`. -/
def is_image_file (filename : String) : Bool :=
  extensions.any (fun ext => filename.toLower.endsWith ext)

/-- `_find_classes`: collect the subdirectory names and sort them. -/
def find_classes (fs : FS) : List String :=
  List.insertionSort (· ≤ ·) fs.rootDirs

/-- `class_to_idx = {cls_name: i for i, cls_name in enumerate(classes)}`:
for the distinct directory names of a filesystem this dictionary maps a
name to its position in `classes`. -/
def class_to_idx (classes : List String) (name : String) : Nat :=
  classes.indexOf name

/-- The comparison `sorted(os.walk(...))` effectively uses: compare walk
tuples by their dirpath (distinct dirpaths make the remaining components
irrelevant). -/
def walkLE (p q : String × List String) : Prop := p.1 ≤ q.1

instance : DecidableRel walkLE := fun p q => inferInstanceAs (Decidable (p.1 ≤ q.1))

instance : IsTotal (String × List String) walkLE := ⟨fun p q => le_total p.1 q.1⟩

instance : IsTrans (String × List String) walkLE := ⟨fun _ _ _ h h' => le_trans h h'⟩

/-- `_make_dataset`: for each class name in sorted order, walk its subtree
in sorted order, visit the filenames of each directory in sorted order,
and keep `(os.path.join(root, fname), class_index)` for the paths passing
`_is_image_file`.  (The `os.path.isdir(target_dir)` guard always holds—the
names come from `os.scandir` directory entries—so it is not modelled.) -/
def make_dataset (fs : FS) (classes : List String) : List (String × Nat) :=
  (List.insertionSort (· ≤ ·) classes).flatMap (fun target_class =>
    (List.insertionSort walkLE (fs.walk target_class)).flatMap (fun p =>
      (List.insertionSort (· ≤ ·) p.2).filterMap (fun fname =>
        let path := p.1 ++ "/" ++ fname
        if is_image_file path then some (path, class_to_idx classes target_class)
        else none)))

/-- `CustomImageFolder.__init__`: find the classes, then build the sample
list.  No failure path exists anywhere in it: zero subdirectories or a
class directory without qualifying files both produce an ordinary
(partially empty) catalog. -/
def build (fs : FS) : Catalog :=
  { classes := find_classes fs
    samples := make_dataset fs (find_classes fs) }

end CustomImageFolder

/-- The empty directory tree: no class subdirectories at all. -/
def fs0 : FS := ⟨[], fun _ => []⟩

/-- A catalog with two classes in which class 1 (`"b"`) has no samples. -/
def cat3 : Catalog := ⟨["a", "b"], [("p", 0)]⟩

/-- Helper: `np.random.choice` on an empty class population raises
(`ValueError`), so sampling a class with no members fails. -/
theorem sampleOneClass_none {rng : Rng} {labels : List Nat} {k c : Nat}
    (hcis : classIndices labels c = []) (hk : 0 < k) :
    sampleOneClass rng labels k c = none := by
  have hlen : (classIndices labels c).length < k := by
    rw [hcis]
    simpa using hk
  unfold sampleOneClass
  rw [if_pos hlen, hcis]
  rfl

/-- Helper: one failing class makes the whole sampling loop fail. -/
theorem sampleClasses_none {rng : Rng} {labels : List Nat} {k : Nat} :
    ∀ {cs : List Nat} (c : Nat), c ∈ cs → sampleOneClass rng labels k c = none →
      sampleClasses rng labels k cs = none := by
  intro cs
  induction cs with
  | nil =>
    intro c hc
    exact absurd hc (List.not_mem_nil c)
  | cons c' cs ih =>
    intro c hc hnone
    rcases List.mem_cons.1 hc with rfl | hmem
    · unfold sampleClasses
      rw [hnone]
    · unfold sampleClasses
      rw [ih c hmem hnone]
      rcases sampleOneClass rng labels k c' with _ | s <;> rfl

/-- Claim C4, counterexample: with zero class subdirectories, catalog
construction raises nothing — it returns the empty catalog, with no
`CatalogError` (no such error exists in the code).  The run does abort
before training starts, but only later, inside `get_data_loaders`, whose
first per-class-count diagnostic (`np.bincount` of an empty float64
array) raises `TypeError` — modelled by the `none` result. -/
theorem claim_C4_counterexample :
    CustomImageFolder.build fs0 = ⟨[], []⟩ ∧
    get_data_loaders rng0 (CustomImageFolder.build fs0) 4000 = none :=
  ⟨rfl, rfl⟩

/-- Claim C4 (amended): catalog construction itself never fails, and no
`CatalogError` exists; in both degenerate cases the run still aborts
before training starts, but later and with other errors.  With zero class
subdirectories, construction returns the empty catalog and
`get_data_loaders` aborts at its first per-class-count diagnostic
(`np.bincount` of the empty label list raises `TypeError`) — likewise for
any catalog with no samples.  With a class directory yielding zero
qualifying files, construction also succeeds, and the failing component
is the balanced sampler, where `np.random.choice` rejects the empty class
population (`ValueError`), making `get_data_loaders` fail for any catalog
containing such a class. -/
theorem claim_C4 (fs : FS) (rng : Rng) (k : Nat) :
    (fs.rootDirs = [] →
      CustomImageFolder.build fs = ⟨[], []⟩ ∧
      get_data_loaders rng (CustomImageFolder.build fs) k = none) ∧
    (∀ cat : Catalog, cat.samples = [] → get_data_loaders rng cat k = none) ∧
    (∀ labels c, classIndices labels c = [] → 0 < k →
      sampleOneClass rng labels k c = none) ∧
    (∀ cat : Catalog, ∀ c, c < cat.classes.length →
      classIndices (catLabels cat) c = [] → 0 < k →
      get_data_loaders rng cat k = none) := by
  have hempty : ∀ cat : Catalog, cat.samples = [] → get_data_loaders rng cat k = none := by
    intro cat hs
    have hlab : (catLabels cat).isEmpty = true := by
      simp [catLabels, hs]
    unfold get_data_loaders
    rw [if_pos hlab]
  refine ⟨?_, hempty, ?_, ?_⟩
  · intro h0
    have hbuild : CustomImageFolder.build fs = ⟨[], []⟩ := by
      simp [CustomImageFolder.build, CustomImageFolder.find_classes,
        CustomImageFolder.make_dataset, h0]
    exact ⟨hbuild, hbuild ▸ hempty ⟨[], []⟩ rfl⟩
  · intro labels c hcis hk
    exact sampleOneClass_none hcis hk
  · intro cat c hc hcis hk
    unfold get_data_loaders
    by_cases hemp : (catLabels cat).isEmpty
    · rw [if_pos hemp]
    · rw [if_neg hemp,
        sampleClasses_none c (List.mem_range.2 hc) (sampleOneClass_none hcis hk)]

/-- Witness for Claim C4 (amended) at concrete inputs: the empty tree, a
label list in which class 5 has no members, and the catalog `cat3`, whose
class 1 has no samples. -/
theorem claim_C4_witness :
    (CustomImageFolder.build fs0 = ⟨[], []⟩ ∧
      get_data_loaders rng0 (CustomImageFolder.build fs0) 3 = none) ∧
    sampleOneClass rng0 [0, 0] 3 5 = none ∧
    get_data_loaders rng0 cat3 5 = none :=
  ⟨(claim_C4 fs0 rng0 3).1 rfl,
    (claim_C4 fs0 rng0 3).2.2.1 [0, 0] 5 (by decide) (by decide),
    (claim_C4 fs0 rng0 5).2.2.2 cat3 1 (by decide) (by decide) (by decide)⟩

open CustomImageFolder

/-- Strict dirpath comparison on walk tuples. -/
def walkLT (p q : String × List String) : Prop := p.1 < q.1

instance : IsAntisymm (String × List String) walkLT :=
  ⟨fun _ _ h h' => absurd h' (lt_asymm h)⟩

theorem sorted_walkLT {l : List (String × List String)}
    (hs : l.Sorted walkLE) (hnd : (l.map Prod.fst).Nodup) : l.Sorted walkLT := by
  have hne : l.Pairwise (fun p q => p.1 ≠ q.1) := List.pairwise_map.1 hnd
  exact (hs.and hne).imp (fun h => lt_of_le_of_ne h.1 h.2)

/-- Sorting strings is permutation-invariant: the code's catalog does not
depend on the order the filesystem enumerates directory entries. -/
theorem sortStrings_eq_of_perm {l l' : List String} (hp : l'.Perm l) :
    List.insertionSort (· ≤ ·) l' = List.insertionSort (· ≤ ·) l :=
  List.eq_of_perm_of_sorted
    ((List.perm_insertionSort _ l').trans (hp.trans (List.perm_insertionSort _ l).symm))
    (List.sorted_insertionSort _ l') (List.sorted_insertionSort _ l)

/-- Sorting walk entries by dirpath is permutation-invariant as long as
the dirpaths are distinct (which they are in a real `os.walk`). -/
theorem sortWalk_eq_of_perm {w w' : List (String × List String)}
    (hp : w'.Perm w) (hnd : (w.map Prod.fst).Nodup) :
    List.insertionSort walkLE w' = List.insertionSort walkLE w := by
  have hnd' : (w'.map Prod.fst).Nodup := (hp.map Prod.fst).symm.nodup hnd
  have hnds : ((List.insertionSort walkLE w).map Prod.fst).Nodup :=
    ((List.perm_insertionSort walkLE w).map Prod.fst).symm.nodup hnd
  have hnds' : ((List.insertionSort walkLE w').map Prod.fst).Nodup :=
    ((List.perm_insertionSort walkLE w').map Prod.fst).symm.nodup hnd'
  refine List.eq_of_perm_of_sorted (r := walkLT) ?_ ?_ ?_
  · exact (List.perm_insertionSort walkLE w').trans
      (hp.trans (List.perm_insertionSort walkLE w).symm)
  · exact sorted_walkLT (List.sorted_insertionSort walkLE w') hnds'
  · exact sorted_walkLT (List.sorted_insertionSort walkLE w) hnds

theorem filterMap_if_eq {α β : Type} (p : α → Bool) (g : α → β) :
    ∀ l : List α,
      l.filterMap (fun x => if p x then some (g x) else none) = (l.filter p).map g := by
  intro l
  induction l with
  | nil => rfl
  | cons x xs ih =>
    by_cases hx : p x
    · simp [List.filterMap_cons, List.filter_cons, hx, ih]
    · simp [List.filterMap_cons, List.filter_cons, hx, ih]

/-- The `(dirpath, filename)` keys `_make_dataset` visits for one class,
in visit order (sorted walk, then sorted filenames within a directory). -/
def class_file_keys (fs : FS) (c : String) : List (String × String) :=
  (List.insertionSort walkLE (fs.walk c)).flatMap (fun p =>
    (List.insertionSort (· ≤ ·) p.2).map (fun fname => (p.1, fname)))

/-- Whether a visited key passes the extension filter — applied, exactly
as in the code, to the joined path. -/
def key_ok (p : String × String) : Bool := is_image_file (p.1 ++ "/" ++ p.2)

theorem make_dataset_class (fs : FS) (classes : List String) (c : String) :
    (List.insertionSort walkLE (fs.walk c)).flatMap (fun p =>
      (List.insertionSort (· ≤ ·) p.2).filterMap (fun fname =>
        let path := p.1 ++ "/" ++ fname
        if is_image_file path then some (path, class_to_idx classes c) else none)) =
    ((class_file_keys fs c).filter key_ok).map
      (fun p => (p.1 ++ "/" ++ p.2, class_to_idx classes c)) := by
  rw [← filterMap_if_eq key_ok (fun p => (p.1 ++ "/" ++ p.2, class_to_idx classes c))]
  rw [class_file_keys, List.filterMap_flatMap]
  refine congrArg _ (funext fun p => ?_)
  rw [List.filterMap_map]
  refine congrArg (fun f => List.filterMap f (List.insertionSort (· ≤ ·) p.2))
    (funext fun fname => ?_)
  simp only [key_ok, Function.comp]

theorem make_dataset_eq (fs : FS) (classes : List String)
    (hs : classes.Sorted (· ≤ ·)) :
    make_dataset fs classes = classes.flatMap (fun c =>
      ((class_file_keys fs c).filter key_ok).map
        (fun p => (p.1 ++ "/" ++ p.2, class_to_idx classes c))) := by
  rw [make_dataset, hs.insertionSort_eq]
  exact congrArg _ (funext fun c => make_dataset_class fs classes c)

theorem find_classes_sorted (fs : FS) : (find_classes fs).Sorted (· ≤ ·) :=
  List.sorted_insertionSort _ _

theorem class_file_keys_sorted (fs : FS)
    (hroots : ∀ c, ((fs.walk c).map Prod.fst).Nodup) (c : String) :
    (class_file_keys fs c).Sorted (fun p q => p.1 < q.1 ∨ (p.1 = q.1 ∧ p.2 ≤ q.2)) := by
  have hndsort : ((List.insertionSort walkLE (fs.walk c)).map Prod.fst).Nodup :=
    ((List.perm_insertionSort walkLE (fs.walk c)).map Prod.fst).symm.nodup (hroots c)
  have hstrict : (List.insertionSort walkLE (fs.walk c)).Sorted walkLT :=
    sorted_walkLT (List.sorted_insertionSort walkLE (fs.walk c)) hndsort
  rw [class_file_keys]
  refine List.pairwise_flatMap.2 ⟨?_, ?_⟩
  · intro p _
    refine List.pairwise_map.2 ?_
    exact (List.sorted_insertionSort _ p.2).imp (fun h => Or.inr ⟨rfl, h⟩)
  · refine hstrict.imp ?_
    intro p q hpq x hx y hy
    rcases List.mem_map.1 hx with ⟨xf, _, rfl⟩
    rcases List.mem_map.1 hy with ⟨yf, _, rfl⟩
    exact Or.inl hpq

/-- Claim C9: for every directory tree with distinct subdirectory names,
distinct walk dirpaths, and at least one class:
the class list is the sorted, duplicate-free subdirectory list;
`class_to_idx` maps the class names bijectively onto `[0, num_classes)`;
the catalog is identical for any other enumeration order of the
subdirectories and walk entries (traversal-order independence);
every catalog entry passes the case-insensitive extension allow-list and,
conversely, every qualifying walked file of every class appears in the
catalog with that class's index; the catalog size is the total qualifying
file count; and each class's walked keys come in sorted (directory, then
filename) order. -/
theorem claim_C9 (fs fs' : FS)
    (hnd : fs.rootDirs.Nodup) (hne : fs.rootDirs ≠ [])
    (hroots : ∀ c, ((fs.walk c).map Prod.fst).Nodup)
    (hperm : fs'.rootDirs.Perm fs.rootDirs)
    (hwalk : ∀ c, (fs'.walk c).Perm (fs.walk c)) :
    ((build fs).classes.Sorted (· ≤ ·) ∧ (build fs).classes.Nodup ∧
      (build fs).classes ≠ []) ∧
    (∀ a ∈ (build fs).classes,
      class_to_idx (build fs).classes a < (build fs).classes.length) ∧
    (∀ a ∈ (build fs).classes, ∀ b ∈ (build fs).classes,
      class_to_idx (build fs).classes a = class_to_idx (build fs).classes b → a = b) ∧
    (∀ i, i < (build fs).classes.length →
      ∃ a ∈ (build fs).classes, class_to_idx (build fs).classes a = i) ∧
    build fs' = build fs ∧
    (∀ e ∈ (build fs).samples, is_image_file e.1 = true) ∧
    (∀ c ∈ (build fs).classes, ∀ p ∈ class_file_keys fs c, key_ok p = true →
      (p.1 ++ "/" ++ p.2, class_to_idx (build fs).classes c) ∈ (build fs).samples) ∧
    ((build fs).samples.length =
      ((build fs).classes.map (fun c =>
        ((class_file_keys fs c).filter key_ok).length)).sum) ∧
    (∀ c, (class_file_keys fs c).Sorted (fun p q => p.1 < q.1 ∨ (p.1 = q.1 ∧ p.2 ≤ q.2))) := by
  have hclasses : (build fs).classes = find_classes fs := rfl
  have hsorted : (build fs).classes.Sorted (· ≤ ·) := List.sorted_insertionSort _ _
  have hnodup : (build fs).classes.Nodup :=
    (List.perm_insertionSort (· ≤ ·) fs.rootDirs).symm.nodup hnd
  have hsamples : (build fs).samples = (build fs).classes.flatMap (fun c =>
      ((class_file_keys fs c).filter key_ok).map
        (fun p => (p.1 ++ "/" ++ p.2, class_to_idx (build fs).classes c))) :=
    make_dataset_eq fs (find_classes fs) hsorted
  refine ⟨⟨hsorted, hnodup, ?_⟩, ?_, ?_, ?_, ?_, ?_, ?_, ?_, ?_⟩
  · intro h
    have hlen : fs.rootDirs.length = 0 := by
      simpa [hclasses, find_classes] using congrArg List.length h
    exact hne (List.length_eq_zero.1 hlen)
  · intro a ha
    exact List.indexOf_lt_length.2 ha
  · intro a ha b hb heq
    have h1 := List.indexOf_lt_length.2 ha
    have h2 := List.indexOf_lt_length.2 hb
    have hga := List.indexOf_get (a := a) h1
    have hgb := List.indexOf_get (a := b) h2
    rw [← hga, ← hgb]
    congr 1
    exact Fin.ext heq
  · intro i hi
    refine ⟨(build fs).classes.get ⟨i, hi⟩, List.get_mem _ _ hi, ?_⟩
    simpa [class_to_idx] using List.get_indexOf hnodup ⟨i, hi⟩
  · have hcl : find_classes fs' = find_classes fs := sortStrings_eq_of_perm hperm
    have hmd : make_dataset fs' (find_classes fs) = make_dataset fs (find_classes fs) := by
      unfold make_dataset
      refine congrArg _ (funext fun tc => ?_)
      rw [sortWalk_eq_of_perm (hwalk tc) (hroots tc)]
    show build fs' = build fs
    unfold build
    rw [hcl, hmd]
  · intro e he
    rw [hsamples] at he
    rcases List.mem_flatMap.1 he with ⟨c, _, hmem⟩
    rcases List.mem_map.1 hmem with ⟨p, hp, rfl⟩
    have hok := (List.mem_filter.1 hp).2
    simpa [key_ok] using hok
  · intro c hc p hp hok
    rw [hsamples]
    exact List.mem_flatMap.2 ⟨c, hc, List.mem_map.2 ⟨p, List.mem_filter.2 ⟨hp, hok⟩, rfl⟩⟩
  · rw [hsamples, List.flatMap_def, List.length_flatten, List.map_map]
    refine congrArg List.sum ?_
    refine congrArg (fun f => List.map f (build fs).classes) (funext fun c => ?_)
    simp [Function.comp]
  · exact class_file_keys_sorted fs hroots

/-- A small concrete directory tree: two classes listed by the filesystem
in unsorted order; class `a` holds one upper-case-extension image, class
`b` holds one image and one non-image file. -/
def fsA : FS :=
  ⟨["b", "a"], fun c =>
    if c = "a" then [("a", ["x.JPG"])]
    else if c = "b" then [("b", ["z.txt", "y.png"])]
    else []⟩

/-- Witness for Claim C9 at the concrete tree `fsA`. -/
theorem claim_C9_witness :
    ((build fsA).classes.Sorted (· ≤ ·) ∧ (build fsA).classes.Nodup ∧
      (build fsA).classes ≠ []) :=
  (claim_C9 fsA fsA (by decide) (by decide)
    (fun c => by
      by_cases h1 : c = "a"
      · simp [fsA, h1]
      · by_cases h2 : c = "b"
        · simp [fsA, h1, h2]
        · simp [fsA, h1, h2])
    (List.Perm.refl _) (fun _ => List.Perm.refl _)).1
